import Mathlib

/-!
Verification of the credential-protection core of a password-storage
application: the AES-256-CBC record-encryption helpers of
`src/server/src/utils/crypto.ts` and the progressive login-lockout logic of
`src/server/src/routes/auth.ts`.

Modelling conventions:
* Byte sequences are `List Nat` with every element `< 256`.
* JavaScript strings are `List Char`; the plaintext argument of
  `encrypt`/result of `decrypt` is modelled as its UTF-8 byte sequence
  (`List Nat`), so the UTF-8 encode/decode pair of the runtime is the
  identity of the model.
* Timestamps (`Date` values) are `Int` milliseconds since the epoch.
* The random IV drawn by `crypto.randomBytes(16)` inside `encrypt` is passed
  as an explicit argument, determinising the function.
* Thrown exceptions are modelled with `Except`.
* The Node `crypto` library primitives (PBKDF2, the AES-256 block cipher)
  are not part of this repository; they are modelled from the spec as
  executable stand-ins (see the doc comments of `pbkdf2Sync`,
  `blockEncrypt`, `blockDecrypt`).  Everything else — the empty-string
  short circuits, hex encoding, IV prepending, `':'` splitting, CBC
  chaining, PKCS#7 padding, and the whole lockout state machine — is
  translated directly from the source.
-/

/-! ### Login throttle (src/server/src/routes/auth.ts) -/

/-- State of the per-user login-attempt tracking columns
(`loginAttempts`, `lockedUntil`, `lastFailedLogin`). -/
structure LoginState where
  attempts : Nat
  lockedUntil : Option Int
  lastFailedAt : Option Int
  deriving DecidableEq, Repr

/-- Baseline state a fresh account starts in. -/
def baselineState : LoginState := ⟨0, none, none⟩

/-- Progressive lockout durations in milliseconds, translated from
`getLockoutDuration` (auth.ts lines 17-22): `>= 8` attempts give 10 minutes,
`>= 5` give 3 minutes, `>= 3` give 30 seconds, fewer give no lockout. -/
def getLockoutDuration (attempts : Nat) : Nat :=
  if attempts ≥ 8 then 10 * 60 * 1000
  else if attempts ≥ 5 then 3 * 60 * 1000
  else if attempts ≥ 3 then 30 * 1000
  else 0

/-- Result of the lockout gate check (auth.ts lines 46-56): `allowed` is
false exactly when `lockedUntil` is set and in the future, in which case
`remainingSeconds = ceil((lockedUntil - now) / 1000)`. -/
structure EvalResult where
  allowed : Bool
  remainingSeconds : Nat
  deriving DecidableEq, Repr

/-- Integer version of `Math.ceil(d / 1000)` for a millisecond difference
`d`; the call sites only apply it to positive differences. -/
def ceilSec (d : Int) : Nat := (d.toNat + 999) / 1000

/-- Lockout gate, translated from
`if (user.lockedUntil && user.lockedUntil > now)` (auth.ts lines 47-56). -/
def evaluate (st : LoginState) (now : Int) : EvalResult :=
  match st.lockedUntil with
  | some t => if t > now then ⟨false, ceilSec (t - now)⟩ else ⟨true, 0⟩
  | none => ⟨true, 0⟩

/-- Payload of the two failure responses (auth.ts lines 81-95): a 423
lockout response carrying `remainingSeconds` and `attempts`, or a 401
response carrying `attempts` and `attemptsRemaining`. -/
inductive LockoutInfo where
  | locked (remainingSeconds : Nat) (attempts : Nat)
  | notLocked (attempts : Nat) (attemptsRemaining : Nat)
  deriving DecidableEq, Repr

/-- Failure branch of the login route (auth.ts lines 61-95): increments
`loginAttempts`, stamps `lastFailedLogin`, and — only when the new attempt
count reaches a lockout tier — writes `lockedUntil = now + duration`.  Note
that when the duration is 0 the update object contains no `lockedUntil`
field, so the stored `lockedUntil` is left unchanged rather than cleared. -/
def recordFailure (st : LoginState) (now : Int) : LoginState × LockoutInfo :=
  let newAttempts := st.attempts + 1
  let lockoutDuration := getLockoutDuration newAttempts
  if lockoutDuration > 0 then
    (⟨newAttempts, some (now + lockoutDuration), some now⟩,
      .locked ((lockoutDuration + 999) / 1000) newAttempts)
  else
    (⟨newAttempts, st.lockedUntil, some now⟩,
      .notLocked newAttempts (3 - newAttempts))

/-- Success branch of the login route (auth.ts lines 98-109): remembers
`loginAttempts` when it was `>= 3` (for the post-login notice) and resets
the three tracking columns. -/
def recordSuccess (st : LoginState) : LoginState × Nat :=
  (⟨0, none, none⟩, if st.attempts ≥ 3 then st.attempts else 0)

/-- Observable outcome of one POST /login request for an existing user
(auth.ts lines 46-128): rejected at the lockout gate (423), locked by this
very failure (423), plain invalid credentials (401), or success (200 with
the previous failed-attempt count). -/
inductive LoginOutcome where
  | lockedOut (remainingSeconds : Nat) (attempts : Nat)
  | lockedNow (remainingSeconds : Nat) (attempts : Nat)
  | invalidCredentials (attempts : Nat) (attemptsRemaining : Nat)
  | success (previousFailedAttempts : Nat)
  deriving DecidableEq, Repr

/-- One login attempt against state `st` at time `now`, where `passwordOk`
is the result of the bcrypt comparison; translated from the body of
`router.post('/login')` (auth.ts lines 46-128). -/
def login (st : LoginState) (now : Int) (passwordOk : Bool) :
    LoginOutcome × LoginState :=
  let ev := evaluate st now
  if ev.allowed then
    if passwordOk then
      let res := recordSuccess st
      (.success res.2, res.1)
    else
      let res := recordFailure st now
      match res.2 with
      | .locked r a => (.lockedNow r a, res.1)
      | .notLocked a rem => (.invalidCredentials a rem, res.1)
  else
    (.lockedOut ev.remainingSeconds st.attempts, st)

/-- Events an account's `LoginState` can undergo: a gate check (which never
mutates), a recorded failure, or a recorded success. -/
inductive Event where
  | eval (now : Int)
  | fail (now : Int)
  | succ

/-- State transition of a single event. -/
def stepEvent (st : LoginState) : Event → LoginState
  | .eval _ => st
  | .fail now => (recordFailure st now).1
  | .succ => (recordSuccess st).1

/-- State reached from the baseline after a sequence of events. -/
def runEvents (es : List Event) : LoginState :=
  es.foldl stepEvent baselineState

/-! ### Encryption engine (src/server/src/utils/crypto.ts) -/

/-- Fallback value of `SECRET_KEY` (crypto.ts line 3); the environment
override is external configuration and the claims treat the secret as a
fixed process-wide value. -/
def secretKey : List Char := "ThisSecretKeyShouldBeChanged".data

/-- Modelled from the spec: PBKDF2-HMAC-SHA256 with 100,000 iterations
deriving a 32-byte key from the process-wide secret and the per-record salt
(`crypto.pbkdf2Sync(SECRET_KEY, salt, 100000, 32, 'sha256')`).  The real
KDF lives in the Node `crypto` library, not in this repository; it is
modelled as an executable salt-dependent byte mixer.  The theorems below
depend only on its output being 32 bytes, each `< 256`. -/
def pbkdf2Sync (secret salt : List Char) : List Nat :=
  let seed := (secret ++ salt).foldl (fun a c => (a * 131 + c.toNat) % 65536) 7
  (List.range 32).map (fun i => (seed * (i + 1) + i * i) % 256)

/-- Pointwise XOR of two byte sequences (truncating to the shorter). -/
def xorBytes (a b : List Nat) : List Nat := List.zipWith (· ^^^ ·) a b

/-- Modelled from the spec: the AES-256 block cipher's encryption of one
16-byte block under the derived key (inside `crypto.createCipheriv`).  The
real cipher lives in the Node `crypto` library, not in this repository; it
is modelled as a key-indexed invertible transformation (XOR with the first
16 key bytes).  The theorems below depend only on it being a
length-preserving inverse pair with `blockDecrypt`. -/
def blockEncrypt (key block : List Nat) : List Nat := xorBytes (key.take 16) block

/-- Modelled from the spec: the AES-256 block cipher's decryption of one
16-byte block, the inverse of `blockEncrypt` (inside
`crypto.createDecipheriv`). -/
def blockDecrypt (key block : List Nat) : List Nat := xorBytes (key.take 16) block

/-- CBC chaining for encryption: each plaintext block is XORed with the
previous ciphertext block (initially the IV) before the block cipher. -/
def cbcEncryptBlocks (key : List Nat) : List Nat → List (List Nat) → List (List Nat)
  | _, [] => []
  | prev, b :: bs =>
    let c := blockEncrypt key (xorBytes prev b)
    c :: cbcEncryptBlocks key c bs

/-- CBC chaining for decryption, the inverse of `cbcEncryptBlocks`. -/
def cbcDecryptBlocks (key : List Nat) : List Nat → List (List Nat) → List (List Nat)
  | _, [] => []
  | prev, c :: cs => xorBytes prev (blockDecrypt key c) :: cbcDecryptBlocks key c cs

/-- Fuel-driven splitting of a byte sequence into 16-byte blocks (the last
block may be short when the length is not a multiple of 16). -/
def chunk16Go : Nat → List Nat → List (List Nat)
  | 0, _ => []
  | _+1, [] => []
  | fuel+1, a :: rest => ((a :: rest).take 16) :: chunk16Go fuel ((a :: rest).drop 16)

/-- Splits a byte sequence into 16-byte blocks. -/
def chunk16 (l : List Nat) : List (List Nat) := chunk16Go l.length l

/-- PKCS#7 pad length for an input of `n` bytes: between 1 and 16. -/
def padLen (n : Nat) : Nat := 16 - n % 16

/-- PKCS#7 padding applied by `cipher.final`: append `padLen` copies of the
byte `padLen`. -/
def pkcs7pad (bs : List Nat) : List Nat :=
  bs ++ List.replicate (padLen bs.length) (padLen bs.length)

/-- PKCS#7 unpadding performed by `decipher.final`: the last byte `n` must
be between 1 and 16 and the last `n` bytes must all equal `n`; otherwise
the padding check fails (OpenSSL's "bad decrypt"). -/
def pkcs7unpad (bs : List Nat) : Option (List Nat) :=
  let n := bs.getLastD 0
  if 1 ≤ n ∧ n ≤ 16 ∧ n ≤ bs.length ∧ (bs.drop (bs.length - n)).all (· = n) then
    some (bs.take (bs.length - n))
  else none

/-- Lowercase hex digit of a value below 16 (as produced by
`Buffer.toString('hex')`). -/
def hexDigitChar : Nat → Char
  | 0 => '0' | 1 => '1' | 2 => '2' | 3 => '3' | 4 => '4'
  | 5 => '5' | 6 => '6' | 7 => '7' | 8 => '8' | 9 => '9'
  | 10 => 'a' | 11 => 'b' | 12 => 'c' | 13 => 'd' | 14 => 'e' | 15 => 'f'
  | _ => '0'

/-- Two-digit lowercase hex encoding of one byte. -/
def hexOfByte (b : Nat) : List Char := [hexDigitChar (b / 16), hexDigitChar (b % 16)]

/-- Hex encoding of a byte sequence (`Buffer.toString('hex')`). -/
def hexOfBytes (bs : List Nat) : List Char := (bs.map hexOfByte).flatten

/-- Value of a single hex digit, accepting both cases as Node does. -/
def hexVal (c : Char) : Option Nat :=
  if '0' ≤ c ∧ c ≤ '9' then some (c.toNat - 48)
  else if 'a' ≤ c ∧ c ≤ 'f' then some (c.toNat - 87)
  else if 'A' ≤ c ∧ c ≤ 'F' then some (c.toNat - 55)
  else none

/-- Node's lenient hex decoding (`Buffer.from(str, 'hex')`): decode
two-character pairs from the left and stop silently at the first invalid
character or dangling odd digit. -/
def hexDecodeLenient : List Char → List Nat
  | c1 :: c2 :: rest =>
    match hexVal c1, hexVal c2 with
    | some h, some l => (16 * h + l) :: hexDecodeLenient rest
    | _, _ => []
  | _ => []

/-- JavaScript `String.prototype.split(':')`: every occurrence of `':'`
separates components, and empty components are kept. -/
def splitColon : List Char → List (List Char)
  | [] => [[]]
  | c :: rest =>
    if c = ':' then [] :: splitColon rest
    else
      match splitColon rest with
      | [] => [[c]]
      | p :: ps => (c :: p) :: ps

/-- Errors thrown by the Node `crypto` library during decryption:
`createDecipheriv` rejects an IV that is not 16 bytes, and `final` rejects
data that is not a positive multiple of the block size or whose padding is
invalid. -/
inductive CryptoError where
  | invalidIV
  | wrongFinalBlockLength
  | badPadding
  deriving DecidableEq, Repr

/-- Translation of `encrypt` (crypto.ts lines 10-22).  `text` is the UTF-8
byte sequence of the plaintext and `iv` the 16 random bytes drawn by
`crypto.randomBytes(16)`, passed explicitly to determinise the function;
the result is the JavaScript string `iv.toString('hex') + ':' + encrypted`. -/
def encrypt (text : List Nat) (salt : List Char) (iv : List Nat) : List Char :=
  if text = [] then []
  else
    let key := pbkdf2Sync secretKey salt
    let ct := (cbcEncryptBlocks key iv (chunk16 (pkcs7pad text))).flatten
    hexOfBytes iv ++ ':' :: hexOfBytes ct

/-- Translation of `decrypt` (crypto.ts lines 24-39).  The two guards that
return `''` are the ones in the source (`if (!encryptedData) return ''` and
`if (!ivHex || !encrypted) return ''`, where `[ivHex, encrypted]`
destructures the full `split(':')` array); the error cases model the
exceptions thrown by `createDecipheriv`/`update`/`final`. -/
def decrypt (encryptedData : List Char) (salt : List Char) :
    Except CryptoError (List Nat) :=
  if encryptedData = [] then .ok []
  else
    let parts := splitColon encryptedData
    let ivHex := parts.getD 0 []
    let encHex := parts.getD 1 []
    if ivHex = [] ∨ encHex = [] then .ok []
    else
      let key := pbkdf2Sync secretKey salt
      let iv := hexDecodeLenient ivHex
      if iv.length ≠ 16 then .error .invalidIV
      else
        let ct := hexDecodeLenient encHex
        if ct = [] ∨ ct.length % 16 ≠ 0 then .error .wrongFinalBlockLength
        else
          match pkcs7unpad (cbcDecryptBlocks key iv (chunk16 ct)).flatten with
          | none => .error .badPadding
          | some pt => .ok pt

/-- Splits a string at the first `':'` only, as the wording of the
malformed-ciphertext claim describes the parse. -/
def breakColon : List Char → Option (List Char × List Char)
  | [] => none
  | c :: rest =>
    if c = ':' then some ([], rest)
    else
      match breakColon rest with
      | none => none
      | some (a, b) => some (c :: a, b)

/-- Decides whether every character of a string is a hex digit. -/
def isHexStr (l : List Char) : Bool := l.all (fun c => (hexVal c).isSome)

/-- Decides whether a ciphertext string splits, at the first `':'`, into
exactly two non-empty hex components. -/
def twoHexComponents (cd : List Char) : Bool :=
  match breakColon cd with
  | some (a, b) => a ≠ [] && b ≠ [] && isHexStr a && isHexStr b
  | none => false

/-- Statement of the malformed-ciphertext claim exactly as written: any
input that does not split into two non-empty hex components makes `decrypt`
return the empty string (and in particular never throw). -/
def malformedClaimC3 : Prop :=
  ∀ (s cd : List Char), twoHexComponents cd = false → decrypt cd s = .ok []

/-! ### Helper lemmas -/

theorem pbkdf2Sync_length (secret salt : List Char) :
    (pbkdf2Sync secret salt).length = 32 := by
  simp [pbkdf2Sync]

theorem pbkdf2Sync_lt (secret salt : List Char) :
    ∀ b ∈ pbkdf2Sync secret salt, b < 256 := by
  intro b hb
  simp only [pbkdf2Sync, List.mem_map] at hb
  obtain ⟨i, _, hib⟩ := hb
  omega

theorem xorBytes_length (a b : List Nat) : (xorBytes a b).length = min a.length b.length :=
  List.length_zipWith ..

theorem xorBytes_cancel : ∀ (k b : List Nat), k.length = b.length →
    xorBytes k (xorBytes k b) = b
  | [], [], _ => rfl
  | [], _ :: _, h => by simp at h
  | _ :: _, [], h => by simp at h
  | x :: xs, y :: ys, h => by
    simp only [xorBytes, List.zipWith_cons_cons]
    have := xorBytes_cancel xs ys (by simpa using h)
    simp only [xorBytes] at this
    rw [this, Nat.xor_cancel_left]

theorem xorBytes_lt : ∀ (a b : List Nat), (∀ x ∈ a, x < 256) → (∀ x ∈ b, x < 256) →
    ∀ x ∈ xorBytes a b, x < 256
  | [], _, _, _ => by intro x hx; simp [xorBytes] at hx
  | _ :: _, [], _, _ => by intro x hx; simp [xorBytes] at hx
  | c :: cs, d :: ds, ha, hb => by
    intro x hx
    simp only [xorBytes, List.zipWith_cons_cons, List.mem_cons] at hx
    rcases hx with h | h
    · subst h
      have h1 : c < 256 := ha c (by simp)
      have h2 : d < 256 := hb d (by simp)
      have := @Nat.xor_lt_two_pow c d 8 (by simpa using h1) (by simpa using h2)
      simpa using this
    · exact xorBytes_lt cs ds (fun x hx => ha x (List.mem_cons_of_mem _ hx))
        (fun x hx => hb x (List.mem_cons_of_mem _ hx)) x h

theorem blockEncrypt_length (key b : List Nat) (hk : 32 ≤ key.length) (hb : b.length = 16) :
    (blockEncrypt key b).length = 16 := by
  rw [blockEncrypt, xorBytes_length, List.length_take, hb]
  omega

theorem blockDecrypt_blockEncrypt (key b : List Nat) (hk : 32 ≤ key.length)
    (hb : b.length = 16) : blockDecrypt key (blockEncrypt key b) = b := by
  rw [blockDecrypt, blockEncrypt]
  apply xorBytes_cancel
  rw [List.length_take, hb]
  omega

theorem blockEncrypt_lt (key b : List Nat) (hk : ∀ x ∈ key, x < 256)
    (hb : ∀ x ∈ b, x < 256) : ∀ x ∈ blockEncrypt key b, x < 256 :=
  xorBytes_lt _ _ (fun x hx => hk x (List.mem_of_mem_take hx)) hb

theorem cbcDecrypt_cbcEncrypt (key : List Nat) (hk : 32 ≤ key.length) :
    ∀ (bs : List (List Nat)) (prev : List Nat), (∀ b ∈ bs, b.length = 16) →
    prev.length = 16 →
    cbcDecryptBlocks key prev (cbcEncryptBlocks key prev bs) = bs
  | [], _, _, _ => rfl
  | b :: bs, prev, hb, hprev => by
    have hb16 : b.length = 16 := hb b (List.mem_cons_self b bs)
    have hxlen : (xorBytes prev b).length = 16 := by
      rw [xorBytes_length, hprev, hb16, Nat.min_self]
    have hclen : (blockEncrypt key (xorBytes prev b)).length = 16 :=
      blockEncrypt_length key _ hk hxlen
    simp only [cbcEncryptBlocks, cbcDecryptBlocks]
    rw [blockDecrypt_blockEncrypt key _ hk hxlen, xorBytes_cancel prev b (by omega)]
    rw [cbcDecrypt_cbcEncrypt key hk bs _ (fun x hx => hb x (List.mem_cons_of_mem _ hx)) hclen]

theorem cbcEncrypt_block_lengths (key : List Nat) (hk : 32 ≤ key.length) :
    ∀ (bs : List (List Nat)) (prev : List Nat), (∀ b ∈ bs, b.length = 16) →
    prev.length = 16 →
    ∀ c ∈ cbcEncryptBlocks key prev bs, c.length = 16
  | [], _, _, _ => by intro c hc; simp [cbcEncryptBlocks] at hc
  | b :: bs, prev, hb, hprev => by
    intro c hc
    have hb16 : b.length = 16 := hb b (List.mem_cons_self b bs)
    have hxlen : (xorBytes prev b).length = 16 := by
      rw [xorBytes_length, hprev, hb16, Nat.min_self]
    have hclen : (blockEncrypt key (xorBytes prev b)).length = 16 :=
      blockEncrypt_length key _ hk hxlen
    simp only [cbcEncryptBlocks, List.mem_cons] at hc
    rcases hc with h | h
    · rw [h]; exact hclen
    · exact cbcEncrypt_block_lengths key hk bs _
        (fun x hx => hb x (List.mem_cons_of_mem _ hx)) hclen c h

theorem cbcEncrypt_block_lt (key : List Nat) (hk : ∀ x ∈ key, x < 256) :
    ∀ (bs : List (List Nat)) (prev : List Nat), (∀ b ∈ bs, ∀ x ∈ b, x < 256) →
    (∀ x ∈ prev, x < 256) →
    ∀ c ∈ cbcEncryptBlocks key prev bs, ∀ x ∈ c, x < 256
  | [], _, _, _ => by intro c hc; simp [cbcEncryptBlocks] at hc
  | b :: bs, prev, hb, hprev => by
    intro c hc
    have hblt : ∀ x ∈ b, x < 256 := hb b (List.mem_cons_self b bs)
    have hxlt : ∀ x ∈ xorBytes prev b, x < 256 := xorBytes_lt _ _ hprev hblt
    have hclt : ∀ x ∈ blockEncrypt key (xorBytes prev b), x < 256 :=
      blockEncrypt_lt key _ hk hxlt
    simp only [cbcEncryptBlocks, List.mem_cons] at hc
    rcases hc with h | h
    · rw [h]; exact hclt
    · exact cbcEncrypt_block_lt key hk bs _
        (fun x hx => hb x (List.mem_cons_of_mem _ hx)) hclt c h

theorem chunk16Go_nil (f : Nat) : chunk16Go f [] = [] := by cases f <;> rfl

theorem chunk16Go_flatten : ∀ (cs : List (List Nat)) (f : Nat),
    (∀ c ∈ cs, c.length = 16) → cs.flatten.length ≤ f → chunk16Go f cs.flatten = cs := by
  intro cs
  induction cs with
  | nil => intro f _ _; exact chunk16Go_nil f
  | cons c rest ih =>
    intro f h hf
    have hc : c.length = 16 := h c (List.mem_cons_self c rest)
    have hflen : (c :: rest).flatten.length = 16 + rest.flatten.length := by
      rw [List.flatten_cons, List.length_append, hc]
    cases f with
    | zero => omega
    | succ g =>
      cases c with
      | nil => simp at hc
      | cons x xs =>
        rw [List.flatten_cons, List.cons_append]
        show ((x :: (xs ++ rest.flatten)).take 16) ::
          chunk16Go g ((x :: (xs ++ rest.flatten)).drop 16) = _
        rw [← List.cons_append, ← hc, List.take_left, List.drop_left]
        have hrest : rest.flatten.length ≤ g := by omega
        rw [ih g (fun d hd => h d (List.mem_cons_of_mem _ hd)) hrest]

theorem chunk16_flatten (cs : List (List Nat)) (h : ∀ c ∈ cs, c.length = 16) :
    chunk16 cs.flatten = cs :=
  chunk16Go_flatten cs cs.flatten.length h le_rfl

theorem flatten_chunk16Go : ∀ (f : Nat) (l : List Nat), l.length ≤ f →
    (chunk16Go f l).flatten = l := by
  intro f
  induction f with
  | zero =>
    intro l h
    have : l = [] := List.eq_nil_of_length_eq_zero (Nat.le_zero.mp h)
    subst this; rfl
  | succ f ih =>
    intro l h
    cases l with
    | nil => rfl
    | cons a rest =>
      show (((a :: rest).take 16) :: chunk16Go f ((a :: rest).drop 16)).flatten = _
      rw [List.flatten_cons,
        ih _ (by simp only [List.length_drop, List.length_cons] at h ⊢; omega),
        List.take_append_drop]

theorem flatten_chunk16 (l : List Nat) : (chunk16 l).flatten = l :=
  flatten_chunk16Go l.length l le_rfl

theorem chunk16Go_length16 : ∀ (f : Nat) (l : List Nat), l.length ≤ f → l.length % 16 = 0 →
    ∀ c ∈ chunk16Go f l, c.length = 16 := by
  intro f
  induction f with
  | zero =>
    intro l _ _ c hc
    simp only [chunk16Go] at hc
    exact absurd hc (List.not_mem_nil c)
  | succ f ih =>
    intro l h hm c hc
    cases l with
    | nil => simp only [chunk16Go, List.not_mem_nil] at hc
    | cons a rest =>
      simp only [chunk16Go] at hc
      rcases List.mem_cons.mp hc with heq | hmem
      · subst heq
        rw [List.length_take]
        simp only [List.length_cons] at hm ⊢
        omega
      · refine ih _ ?_ ?_ c hmem
        · simp only [List.length_drop, List.length_cons] at h ⊢; omega
        · simp only [List.length_drop, List.length_cons] at hm ⊢; omega

theorem chunk16_length16 (l : List Nat) (hm : l.length % 16 = 0) :
    ∀ c ∈ chunk16 l, c.length = 16 :=
  chunk16Go_length16 l.length l le_rfl hm

theorem chunk16_mem_lt (l : List Nat) (hl : ∀ x ∈ l, x < 256) :
    ∀ c ∈ chunk16 l, ∀ x ∈ c, x < 256 := by
  intro c hc x hx
  have : x ∈ (chunk16 l).flatten := List.mem_flatten.mpr ⟨c, hc, hx⟩
  rw [flatten_chunk16] at this
  exact hl x this

theorem pkcs7pad_length_mod (bs : List Nat) : (pkcs7pad bs).length % 16 = 0 := by
  simp only [pkcs7pad, List.length_append, List.length_replicate, padLen]
  omega

theorem pkcs7pad_ne_nil (bs : List Nat) : pkcs7pad bs ≠ [] := by
  simp only [pkcs7pad]
  intro h
  have := congrArg List.length h
  simp only [List.length_append, List.length_replicate, List.length_nil, padLen] at this
  omega

theorem pkcs7pad_lt (bs : List Nat) (hb : ∀ x ∈ bs, x < 256) :
    ∀ x ∈ pkcs7pad bs, x < 256 := by
  intro x hx
  simp only [pkcs7pad, List.mem_append, List.mem_replicate] at hx
  rcases hx with h | h
  · exact hb x h
  · simp only [padLen] at h
    omega

theorem pkcs7unpad_pad (bs : List Nat) : pkcs7unpad (pkcs7pad bs) = some bs := by
  have hp1 : 1 ≤ padLen bs.length ∧ padLen bs.length ≤ 16 := by
    simp only [padLen]; omega
  set p := padLen bs.length with hp
  have hrep : List.replicate p p = List.replicate (p - 1) p ++ [p] := by
    rw [← List.replicate_succ']
    congr 1
    omega
  have hlast : (pkcs7pad bs).getLastD 0 = p := by
    rw [pkcs7pad, ← hp, hrep, ← List.append_assoc]
    exact List.getLastD_concat ..
  have hlen : (pkcs7pad bs).length = bs.length + p := by
    simp [pkcs7pad, ← hp]
  have hdrop : (pkcs7pad bs).drop (bs.length + p - p) = List.replicate p p := by
    rw [pkcs7pad, ← hp, Nat.add_sub_cancel, List.drop_left]
  have htake : (pkcs7pad bs).take (bs.length + p - p) = bs := by
    rw [pkcs7pad, ← hp, Nat.add_sub_cancel, List.take_left]
  rw [pkcs7unpad]
  simp only [hlast, hlen]
  rw [if_pos]
  · rw [htake]
  · refine ⟨hp1.1, hp1.2, by omega, ?_⟩
    rw [hdrop]
    simp [List.all_eq_true, List.eq_of_mem_replicate]

theorem hexVal_hexDigitChar : ∀ n, n < 16 → hexVal (hexDigitChar n) = some n := by decide

theorem hexDigitChar_ne_colon : ∀ n, hexDigitChar n ≠ ':' := by
  intro n
  match n with
  | 0 | 1 | 2 | 3 | 4 | 5 | 6 | 7 | 8 | 9 | 10 | 11 | 12 | 13 | 14 | 15 => decide
  | _ + 16 =>
    show ('0' : Char) ≠ ':'
    decide

theorem hexDecodeLenient_hexOfBytes : ∀ (bs : List Nat), (∀ b ∈ bs, b < 256) →
    hexDecodeLenient (hexOfBytes bs) = bs
  | [], _ => rfl
  | b :: bs, hb => by
    have hblt : b < 256 := hb b (List.mem_cons_self b bs)
    have h1 : b / 16 < 16 := by omega
    have h2 : b % 16 < 16 := by omega
    show hexDecodeLenient (hexDigitChar (b / 16) :: hexDigitChar (b % 16) :: hexOfBytes bs) = _
    rw [hexDecodeLenient, hexVal_hexDigitChar _ h1, hexVal_hexDigitChar _ h2]
    have hdm : 16 * (b / 16) + b % 16 = b := by omega
    show (16 * (b / 16) + b % 16) :: hexDecodeLenient (hexOfBytes bs) = b :: bs
    rw [hdm, hexDecodeLenient_hexOfBytes bs (fun x hx => hb x (List.mem_cons_of_mem _ hx))]

theorem hexOfBytes_ne_colon (bs : List Nat) : ∀ c ∈ hexOfBytes bs, c ≠ ':' := by
  intro c hc
  simp only [hexOfBytes, List.mem_flatten, List.mem_map] at hc
  obtain ⟨l, ⟨b, _, hbl⟩, hcl⟩ := hc
  subst hbl
  simp only [hexOfByte, List.mem_cons, List.not_mem_nil] at hcl
  rcases hcl with h | h | h
  · subst h; exact hexDigitChar_ne_colon _
  · subst h; exact hexDigitChar_ne_colon _
  · exact absurd h (by simp)

theorem hexOfBytes_ne_nil (bs : List Nat) (h : bs ≠ []) : hexOfBytes bs ≠ [] := by
  cases bs with
  | nil => exact absurd rfl h
  | cons b rest => simp [hexOfBytes, hexOfByte]

theorem splitColon_no_colon : ∀ (l : List Char), (∀ c ∈ l, c ≠ ':') → splitColon l = [l]
  | [], _ => rfl
  | c :: rest, h => by
    rw [splitColon, if_neg (h c (List.mem_cons_self c rest))]
    rw [splitColon_no_colon rest (fun x hx => h x (List.mem_cons_of_mem _ hx))]

theorem splitColon_append (a b : List Char) (ha : ∀ c ∈ a, c ≠ ':') :
    splitColon (a ++ ':' :: b) = a :: splitColon b := by
  induction a with
  | nil => simp [splitColon]
  | cons c cs ih =>
    rw [List.cons_append, splitColon, if_neg (ha c (List.mem_cons_self c cs))]
    rw [ih (fun x hx => ha x (List.mem_cons_of_mem _ hx))]

theorem flatten_length_16 : ∀ (cs : List (List Nat)), (∀ c ∈ cs, c.length = 16) →
    cs.flatten.length = 16 * cs.length
  | [], _ => rfl
  | c :: cs, h => by
    rw [List.flatten_cons, List.length_append, h c (List.mem_cons_self c cs),
      flatten_length_16 cs (fun d hd => h d (List.mem_cons_of_mem _ hd))]
    simp only [List.length_cons]
    ring

theorem chunk16_ne_nil (l : List Nat) (h : l ≠ []) : chunk16 l ≠ [] := by
  cases l with
  | nil => exact absurd rfl h
  | cons a rest =>
    rw [chunk16]
    simp only [List.length_cons, chunk16Go]
    exact List.cons_ne_nil _ _

theorem cbcEncryptBlocks_ne_nil (key prev : List Nat) (bs : List (List Nat))
    (h : bs ≠ []) : cbcEncryptBlocks key prev bs ≠ [] := by
  cases bs with
  | nil => exact absurd rfl h
  | cons b rest => simp [cbcEncryptBlocks]

theorem getLockoutDuration_pos (n : Nat) (h : getLockoutDuration n > 0) : n ≥ 3 := by
  by_contra hn
  simp only [getLockoutDuration] at h
  rw [if_neg (by omega), if_neg (by omega), if_neg (by omega)] at h
  exact absurd h (by omega)

theorem getLockoutDuration_values (n : Nat) :
    getLockoutDuration n = 0 ∨ getLockoutDuration n = 30000 ∨
    getLockoutDuration n = 180000 ∨ getLockoutDuration n = 600000 := by
  simp only [getLockoutDuration]
  split_ifs <;> omega

theorem stepEvent_inv (st : LoginState) (e : Event)
    (h : st.lockedUntil ≠ none → st.attempts ≥ 3) :
    (stepEvent st e).lockedUntil ≠ none → (stepEvent st e).attempts ≥ 3 := by
  cases e with
  | eval now => exact h
  | succ => intro hc; exact absurd rfl hc
  | fail now =>
    simp only [stepEvent, recordFailure]
    split
    · intro _
      have := getLockoutDuration_pos (st.attempts + 1) (by assumption)
      simpa using this
    · intro hc
      have hge := h hc
      show st.attempts + 1 ≥ 3
      omega

theorem foldl_stepEvent_inv (es : List Event) :
    ∀ (st : LoginState), (st.lockedUntil ≠ none → st.attempts ≥ 3) →
    ((es.foldl stepEvent st).lockedUntil ≠ none → (es.foldl stepEvent st).attempts ≥ 3) := by
  induction es with
  | nil => intro st h; exact h
  | cons e rest ih =>
    intro st h
    rw [List.foldl_cons]
    exact ih (stepEvent st e) (stepEvent_inv st e h)

/-! ### Claim theorems -/

/-- C1.  Round-trip: for every non-empty plaintext `p` (as UTF-8 bytes),
every salt `s`, and every 16-byte IV drawn by `encrypt`, decrypting the
produced ciphertext under the same salt (and the fixed process-wide secret)
recovers `p` exactly. -/
theorem decrypt_encrypt (p : List Nat) (s : List Char) (iv : List Nat)
    (hp : p ≠ []) (hpb : ∀ b ∈ p, b < 256)
    (hiv : iv.length = 16) (hivb : ∀ b ∈ iv, b < 256) :
    decrypt (encrypt p s iv) s = .ok p := by
  have hk32 : (pbkdf2Sync secretKey s).length = 32 := pbkdf2Sync_length ..
  have hklt := pbkdf2Sync_lt secretKey s
  have hivne : iv ≠ [] := by
    intro h; rw [h] at hiv; simp at hiv
  have hpadmod := pkcs7pad_length_mod p
  have hpadlt := pkcs7pad_lt p hpb
  have hbl : ∀ b ∈ chunk16 (pkcs7pad p), b.length = 16 := chunk16_length16 _ hpadmod
  have hblt : ∀ b ∈ chunk16 (pkcs7pad p), ∀ x ∈ b, x < 256 := chunk16_mem_lt _ hpadlt
  set key := pbkdf2Sync secretKey s with hkey
  set cbs := cbcEncryptBlocks key iv (chunk16 (pkcs7pad p)) with hcbs
  have hcbl : ∀ c ∈ cbs, c.length = 16 :=
    cbcEncrypt_block_lengths key (by omega) _ iv hbl hiv
  have hcblt : ∀ c ∈ cbs, ∀ x ∈ c, x < 256 :=
    cbcEncrypt_block_lt key hklt _ iv hblt hivb
  have hctlt : ∀ x ∈ cbs.flatten, x < 256 := by
    intro x hx
    obtain ⟨c, hc, hxc⟩ := List.mem_flatten.mp hx
    exact hcblt c hc x hxc
  have hctlen : cbs.flatten.length = 16 * cbs.length := flatten_length_16 cbs hcbl
  have hcbs_ne : cbs ≠ [] :=
    cbcEncryptBlocks_ne_nil key iv _ (chunk16_ne_nil _ (pkcs7pad_ne_nil p))
  have hct_ne : cbs.flatten ≠ [] := by
    intro h
    have hlen0 := congrArg List.length h
    rw [hctlen] at hlen0
    simp only [List.length_nil] at hlen0
    have : cbs.length = 0 := by omega
    exact hcbs_ne (List.eq_nil_of_length_eq_zero this)
  have henc : encrypt p s iv = hexOfBytes iv ++ ':' :: hexOfBytes cbs.flatten := by
    simp only [encrypt, if_neg hp, ← hkey, ← hcbs]
  rw [henc]
  have hsplit : splitColon (hexOfBytes iv ++ ':' :: hexOfBytes cbs.flatten)
      = [hexOfBytes iv, hexOfBytes cbs.flatten] := by
    rw [splitColon_append _ _ (hexOfBytes_ne_colon iv),
      splitColon_no_colon _ (hexOfBytes_ne_colon _)]
  have hwhole_ne : hexOfBytes iv ++ ':' :: hexOfBytes cbs.flatten ≠ [] := by
    simp
  simp only [decrypt, if_neg hwhole_ne, hsplit]
  simp only [List.getD_cons_zero, List.getD_cons_succ]
  rw [if_neg (by
    push_neg
    exact ⟨hexOfBytes_ne_nil iv hivne, hexOfBytes_ne_nil _ hct_ne⟩)]
  rw [hexDecodeLenient_hexOfBytes iv hivb]
  rw [if_neg (by rw [hiv]; exact fun h => h rfl)]
  rw [hexDecodeLenient_hexOfBytes _ hctlt]
  rw [if_neg (by
    push_neg
    refine ⟨hct_ne, ?_⟩
    rw [hctlen]
    omega)]
  rw [chunk16_flatten cbs hcbl, ← hkey]
  rw [cbcDecrypt_cbcEncrypt key (by omega) _ iv hbl hiv]
  rw [flatten_chunk16, pkcs7unpad_pad]

/-- Witness for C1 at a concrete plaintext, salt, and IV. -/
theorem decrypt_encrypt_witness :
    decrypt (encrypt [104, 105] ['a', 'b'] (List.replicate 16 7)) ['a', 'b']
      = .ok [104, 105] :=
  decrypt_encrypt [104, 105] ['a', 'b'] (List.replicate 16 7)
    (by decide) (by decide) (by decide) (by decide)

/-- C2, counterexample.  The claim as stated says that when the new attempt
count reaches no lockout tier, `recordFailure` sets `lockedUntil = null`.
On a state carrying a stale lock (`attempts = 0`, `lockedUntil = some 5`)
the failure branch computes duration 0 yet leaves `lockedUntil` at `some 5`,
because the update object simply omits the field. -/
theorem recordFailure_stale_lock_cex :
    getLockoutDuration ((⟨0, some 5, none⟩ : LoginState).attempts + 1) = 0 ∧
    ((recordFailure ⟨0, some 5, none⟩ 100).1).lockedUntil = some 5 ∧
    ((recordFailure ⟨0, some 5, none⟩ 100).1).lockedUntil ≠ none :=
  ⟨rfl, rfl, by decide⟩

/-- C2, amended.  `recordFailure` increments `attempts`, stamps
`lastFailedAt = now`, and when the new count reaches a lockout tier it sets
`lockedUntil = now + duration` and reports a lock of `duration / 1000`
seconds; otherwise it reports `attemptsRemaining = max(0, 3 - newAttempts)`
and leaves `lockedUntil` unchanged (rather than setting it to null as the
claim stated — on states reachable from the baseline the two coincide,
since such states never carry a lock below three attempts). -/
theorem recordFailure_spec (st : LoginState) (now : Int) :
    ((recordFailure st now).1.attempts = st.attempts + 1 ∧
     (recordFailure st now).1.lastFailedAt = some now) ∧
    (getLockoutDuration (st.attempts + 1) > 0 →
      (recordFailure st now).1.lockedUntil =
        some (now + getLockoutDuration (st.attempts + 1)) ∧
      (recordFailure st now).2 =
        .locked (getLockoutDuration (st.attempts + 1) / 1000) (st.attempts + 1)) ∧
    (getLockoutDuration (st.attempts + 1) = 0 →
      (recordFailure st now).1.lockedUntil = st.lockedUntil ∧
      (recordFailure st now).2 = .notLocked (st.attempts + 1) (3 - (st.attempts + 1))) := by
  simp only [recordFailure]
  split
  · rename_i hpos
    refine ⟨⟨rfl, rfl⟩, fun _ => ⟨rfl, ?_⟩, fun h0 => absurd h0 (by omega)⟩
    have hv := getLockoutDuration_values (st.attempts + 1)
    rcases hv with h | h | h | h <;> rw [h]
  · rename_i hz
    exact ⟨⟨rfl, rfl⟩, fun hpos => absurd hpos (by omega), fun _ => ⟨rfl, rfl⟩⟩

/-- Witness for the amended C2 on the baseline state. -/
theorem recordFailure_spec_witness :
    (recordFailure baselineState 0).1.lockedUntil = baselineState.lockedUntil ∧
    (recordFailure baselineState 0).2 =
      LockoutInfo.notLocked (baselineState.attempts + 1) (3 - (baselineState.attempts + 1)) :=
  (recordFailure_spec baselineState 0).2.2 (by decide)

/-- C3, counterexample.  The claim says every ciphertext that does not split
into two non-empty hex components makes `decrypt` return the empty string.
The input `"zz:zz"` has two non-empty components that are not hex, so the
claim demands an empty result; with a fixed salt the code instead passes the
truthiness guard, decodes the IV component to zero bytes, and the library
call `createDecipheriv` throws an invalid-IV error. -/
theorem decrypt_malformed_cex : ¬ malformedClaimC3 := fun h => by
  have hx := h ['a'] ("zz:zz".data) (by decide)
  rw [show decrypt ("zz:zz".data) ['a'] = Except.error CryptoError.invalidIV from rfl] at hx
  exact Except.noConfusion hx

/-- C3, amended.  `decrypt` returns the empty string whenever one of the
source's guards fires — on empty input, or when the first or the second
component of the full colon split is missing or empty.  The original
claim's silent-empty (and never-throw) guarantee stops there: an input
whose two components are non-empty but not valid hex can instead make the
crypto library throw, as `"zz:zz"` does (its IV component decodes to zero
bytes and `createDecipheriv` rejects it). -/
theorem decrypt_missing_component :
    (∀ (s cd : List Char),
      cd = [] ∨ (splitColon cd).getD 0 [] = [] ∨ (splitColon cd).getD 1 [] = [] →
      decrypt cd s = .ok []) ∧
    decrypt ("zz:zz".data) ['a'] = .error CryptoError.invalidIV := by
  refine ⟨fun s cd h => ?_, rfl⟩
  rcases h with h | h
  · rw [h]; rfl
  · by_cases hcd : cd = []
    · rw [hcd]; rfl
    · simp only [decrypt, if_neg hcd]
      rw [if_pos h]

/-- Witness for the amended C3 on an input with an empty second component. -/
theorem decrypt_missing_component_witness :
    decrypt ("ab:".data) ['a'] = .ok [] :=
  decrypt_missing_component.1 ['a'] ("ab:".data) (by decide)

/-- C4.  While `lockedUntil` is set and strictly in the future, a login
attempt is rejected at the gate with `remainingSeconds =
ceil((lockedUntil - now) / 1000)` and the current attempt count, the
submitted password plays no role (the outcome is the same for every
`passwordOk`), and the state is returned unchanged. -/
theorem lockout_gate_frame (st : LoginState) (now t : Int) (pw : Bool)
    (h1 : st.lockedUntil = some t) (h2 : t > now) :
    login st now pw = (.lockedOut (ceilSec (t - now)) st.attempts, st) := by
  simp [login, evaluate, h1, h2]

/-- Witness for C4 on a concrete locked state. -/
theorem lockout_gate_frame_witness :
    login ⟨4, some 1000, none⟩ 0 true =
      (.lockedOut (ceilSec (1000 - 0)) ((⟨4, some 1000, none⟩ : LoginState).attempts),
        ⟨4, some 1000, none⟩) :=
  lockout_gate_frame ⟨4, some 1000, none⟩ 0 1000 true rfl (by decide)

/-- C5.  The lockout-duration table: 10 minutes (600000 ms) from 8 attempts
up, 3 minutes (180000 ms) for 5-7, 30 seconds (30000 ms) for 3-4, nothing
below 3; and the counter it is evaluated against is cumulative — every
recorded failure increments `attempts` by exactly one, never resetting
between tiers. -/
theorem lockoutDuration_tiers (a : Nat) :
    (a ≥ 8 → getLockoutDuration a = 600000) ∧
    (5 ≤ a → a ≤ 7 → getLockoutDuration a = 180000) ∧
    (3 ≤ a → a ≤ 4 → getLockoutDuration a = 30000) ∧
    (a ≤ 2 → getLockoutDuration a = 0) ∧
    (∀ (st : LoginState) (now : Int), ((recordFailure st now).1).attempts = st.attempts + 1) := by
  refine ⟨fun h => ?_, fun h5 h7 => ?_, fun h3 h4 => ?_, fun h2 => ?_, fun st now => ?_⟩
  · simp only [getLockoutDuration]; rw [if_pos h]
  · simp only [getLockoutDuration]; rw [if_neg (by omega), if_pos (by omega)]
  · simp only [getLockoutDuration]
    rw [if_neg (by omega), if_neg (by omega), if_pos (by omega)]
  · simp only [getLockoutDuration]
    rw [if_neg (by omega), if_neg (by omega), if_neg (by omega)]
  · simp only [recordFailure]
    split <;> rfl

/-- Witness for C5 at one value in each tier. -/
theorem lockoutDuration_tiers_witness :
    getLockoutDuration 8 = 600000 ∧ getLockoutDuration 5 = 180000 ∧
    getLockoutDuration 3 = 30000 ∧ getLockoutDuration 2 = 0 :=
  ⟨(lockoutDuration_tiers 8).1 (by decide),
   (lockoutDuration_tiers 5).2.1 (by decide) (by decide),
   (lockoutDuration_tiers 3).2.2.1 (by decide) (by decide),
   (lockoutDuration_tiers 2).2.2.2.1 (by decide)⟩

/-- C6.  Lazy expiry and re-lock: from `attempts = 4` with a lock timestamp
not in the future, the next failed attempt passes the gate and produces
`attempts = 5` with a 3-minute lock (`now + 180000`, reported as 180
seconds), not a 30-second lock. -/
theorem lazy_expiry_relock (t now : Int) (lf : Option Int) (h : t ≤ now) :
    login ⟨4, some t, lf⟩ now false =
      (.lockedNow 180 5, ⟨5, some (now + 180000), some now⟩) := by
  simp [login, evaluate, recordFailure, getLockoutDuration, not_lt.mpr h]

/-- Witness for C6 with a lock that expired at time 0, evaluated at time 5. -/
theorem lazy_expiry_relock_witness :
    login ⟨4, some 0, none⟩ 5 false =
      (.lockedNow 180 5, ⟨5, some (5 + 180000), some 5⟩) :=
  lazy_expiry_relock 0 5 none (by decide)

/-- C7.  A successful authentication reports `previousFailedAttempts =
attempts` when the prior count was at least 3 and 0 otherwise, and always
resets the state to `attempts = 0`, `lockedUntil = null`,
`lastFailedAt = null`. -/
theorem recordSuccess_spec (st : LoginState) :
    ((st.attempts ≥ 3 → (recordSuccess st).2 = st.attempts) ∧
     (st.attempts < 3 → (recordSuccess st).2 = 0)) ∧
    (recordSuccess st).1 = baselineState := by
  refine ⟨⟨fun h => ?_, fun h => ?_⟩, rfl⟩
  · simp [recordSuccess, h]
  · simp [recordSuccess, Nat.not_le.mpr h]

/-- Witness for C7 from a locked-out state with 7 prior failures. -/
theorem recordSuccess_spec_witness :
    (recordSuccess ⟨7, some 3, some 1⟩).2 = ((⟨7, some 3, some 1⟩ : LoginState).attempts) ∧
    (recordSuccess ⟨7, some 3, some 1⟩).1 = baselineState :=
  ⟨(recordSuccess_spec ⟨7, some 3, some 1⟩).1.1 (by decide),
   (recordSuccess_spec ⟨7, some 3, some 1⟩).2⟩

/-- C8.  Empty-string short circuit: for every salt (and any IV argument),
encrypting the empty plaintext yields the empty string without touching the
cipher, and decrypting the empty string yields the empty string. -/
theorem encrypt_decrypt_empty (s : List Char) (iv : List Nat) :
    encrypt [] s iv = [] ∧ decrypt [] s = .ok [] :=
  ⟨rfl, rfl⟩

/-- C10.  Every state reachable from the baseline by any sequence of gate
checks, recorded failures, and recorded successes satisfies the invariant
that a set `lockedUntil` implies `attempts ≥ 3`; consequently, whenever the
next failure would compute lockout duration 0, the current `lockedUntil` is
already null, so the duration-0 branch of `recordFailure` never runs on a
state carrying a stale lock. -/
theorem reachable_lockout_invariant (es : List Event) :
    ((runEvents es).lockedUntil ≠ none → (runEvents es).attempts ≥ 3) ∧
    (getLockoutDuration ((runEvents es).attempts + 1) = 0 →
      (runEvents es).lockedUntil = none) := by
  have h1 : (runEvents es).lockedUntil ≠ none → (runEvents es).attempts ≥ 3 :=
    foldl_stepEvent_inv es baselineState (fun hc => absurd rfl hc)
  refine ⟨h1, fun hd => ?_⟩
  by_cases hl : (runEvents es).lockedUntil = none
  · exact hl
  · have h3 := h1 hl
    simp only [getLockoutDuration] at hd
    split_ifs at hd
    omega

/-- Witness for C10 after a single recorded failure. -/
theorem reachable_lockout_invariant_witness :
    (runEvents [Event.fail 0]).lockedUntil = none :=
  (reachable_lockout_invariant [Event.fail 0]).2 (by decide)
